import Mathlib

/-!
Verification of the reservebot reservation store (`data/redis.go`).

The store keeps two persisted collections: a mapping from a resource's
derived key to the `Resource` record, and one ordered sequence of all
`Reservation` records across every resource.  Each public operation reads
the collections it needs, mutates them in memory, and writes them back.

The embedding below mirrors `data/redis.go` function by function.  The state
a function observes and leaves behind is the pair of decoded collections
(`Store`).  Time is modelled as an integer (durations in hours); `time.Now()`
inside one operation is a single `now` parameter.  Go runtime panics are
modelled as `none` results.

The entity model (`models` package) and the error values (`err` package) are
not part of the provided sources; their definitions below are modelled from
the specification, as noted on each.
-/

deriving instance DecidableEq for Except

namespace Reservebot

/-- Modelled from the spec: a user is an opaque identity with a unique ID
(`models.User`, not in the provided sources). -/
structure User where
  id : String
deriving DecidableEq

/-- Modelled from the spec: a resource has a name, an env and a
`lastActivity` timestamp (`models.Resource`, not in the provided sources).
The Go zero value of the timestamp is modelled as `0`. -/
structure Resource where
  name : String
  env : String
  lastActivity : Int
deriving DecidableEq

/-- Modelled from the spec: the derived key is a deterministic composition
of name and env identifying a resource uniquely (`models.ResourceKey`, not
in the provided sources); the pair itself is such a composition. -/
def ResourceKey (name env : String) : String × String := (name, env)

/-- Modelled from the spec: `models.Resource.Key()` derives the key from the
resource's own name and env. -/
def Resource.Key (r : Resource) : String × String := ResourceKey r.name r.env

/-- Modelled from the spec: a reservation embeds its user and its full
resource record and carries the enqueue time (`models.Reservation`, field
`Time` in the source). -/
structure Reservation where
  user : User
  resource : Resource
  time : Int
deriving DecidableEq

/-- Modelled from the spec: a queue is a resource paired with the ordered
sequence of its reservations (`models.Queue`, not in the provided sources). -/
structure Queue where
  resource : Resource
  reservations : List Reservation
deriving DecidableEq

/-- Modelled from the spec: "Has reservations" means the sequence is
non-empty (`models.Queue.HasReservations`, not in the provided sources). -/
def Queue.HasReservations (q : Queue) : Bool :=
  !q.reservations.isEmpty

/-- Modelled from the spec: the four domain errors of the `err` package
(not in the provided sources). -/
inductive Err where
  | AlreadyInQueue
  | NotInQueue
  | ResourceDoesNotExist
  | EnvDoesNotExist
deriving DecidableEq

/-- The decoded resource mapping (`RedisResources.Resources`): key-to-record
entries in stored order. -/
abbrev Resources := List ((String × String) × Resource)

/-- The two persisted collections, decoded: the resource mapping and the
reservation sequence (`RedisResources` / `RedisReservations`). -/
structure Store where
  resources : Resources
  reservations : List Reservation
deriving DecidableEq

def emptyStore : Store := { resources := [], reservations := [] }

/-- Map lookup: `resources[key]`. -/
def lookupRes : Resources → (String × String) → Option Resource
  | [], _ => none
  | (k, r) :: rest, key => if k = key then some r else lookupRes rest key

/-- Map assignment: `resources[key] = r` (replace if present, else add). -/
def setRes : Resources → (String × String) → Resource → Resources
  | [], key, r => [(key, r)]
  | (k, r0) :: rest, key, r =>
    if k = key then (key, r) :: rest else (k, r0) :: setRes rest key r

/-- Map deletion: `delete(resources, key)`. -/
def eraseRes : Resources → (String × String) → Resources
  | [], _ => []
  | (k, r0) :: rest, key =>
    if k = key then eraseRes rest key else (k, r0) :: eraseRes rest key

/-- `GetResource(name, env, create)` (redis.go:252-270): look the resource up
by derived key; when absent and `create` is set, construct it with the zero
`lastActivity`, store it and persist the mapping. -/
def GetResource (s : Store) (name env : String) (create : Bool) :
    Option Resource × Store :=
  let key := ResourceKey name env
  match lookupRes s.resources key with
  | some r => (some r, s)
  | none =>
    if create then
      let r : Resource := { name := name, env := env, lastActivity := 0 }
      (some r, { s with resources := setRes s.resources r.Key r })
    else (none, s)

/-- `Create(name, env)` (redis.go:48-54): ensure the resource exists.  The
source then assigns `r.LastActivity = time.Now()` on the returned record,
but no `SetRedisResources` call follows, so the persisted mapping keeps the
value written by `GetResource`; the assignment is therefore dropped here. -/
def Create (s : Store) (name env : String) (_now : Int) : Store :=
  (GetResource s name env true).2

/-- The duplicate-membership scan of `Reserve` (redis.go:63-69): is there a
reservation with this user ID and this resource key? -/
def hasReservationFor : List Reservation → String → (String × String) → Bool
  | [], _, _ => false
  | res :: rest, uid, key =>
    if res.user.id = uid ∧ res.resource.Key = key then true
    else hasReservationFor rest uid key

/-- `Reserve(u, name, env)` (redis.go:56-82): ensure the resource exists,
fail with `AlreadyInQueue` on a duplicate, otherwise append a reservation
timestamped now.  The source also assigns `r.LastActivity = time.Now()`;
the record `r` is serialized into the appended reservation (so its embedded
resource carries the stamp) but the resource mapping is not written back. -/
def Reserve (s : Store) (u : User) (name env : String) (now : Int) :
    Except Err Unit × Store :=
  match GetResource s name env true with
  | (some r, s1) =>
    if hasReservationFor s1.reservations u.id r.Key then
      (Except.error Err.AlreadyInQueue, s1)
    else
      let res : Reservation :=
        { user := u, resource := { r with lastActivity := now }, time := now }
      (Except.ok (), { s1 with reservations := s1.reservations ++ [res] })
  | (none, s1) => (Except.ok (), s1)

/-- The scan of `Remove` (redis.go:190-200): walk the sequence counting
entries of this resource (`pos`) until the user's entry is found, returning
its absolute index and its one-based position in the resource's queue. -/
def removeScan : List Reservation → (String × String) → String → Nat → Nat →
    Option (Nat × Nat)
  | [], _, _, _, _ => none
  | res :: rest, key, uid, i, pos =>
    if res.resource.Key = key then
      if res.user.id = uid then some (i, pos + 1)
      else removeScan rest key uid (i + 1) (pos + 1)
    else removeScan rest key uid (i + 1) pos

/-- The promotion stamp of `Remove` (redis.go:208-215): set the time of the
first remaining reservation of this resource to now. -/
def stampFirst : List Reservation → (String × String) → Int → List Reservation
  | [], _, _ => []
  | res :: rest, key, now =>
    if res.resource.Key = key then { res with time := now } :: rest
    else res :: stampFirst rest key now

/-- The reservation-sequence part of `Remove` (redis.go:190-218): scan, fail
if the user is absent, erase the entry, and stamp the new head when the
removed entry held position 1. -/
def removeCore (l : List Reservation) (key : String × String) (uid : String)
    (now : Int) : Option (List Reservation) :=
  match removeScan l key uid 0 0 with
  | none => none
  | some (idx, pos) =>
    some (if pos = 1 then stampFirst (l.take idx ++ l.drop (idx + 1)) key now
          else l.take idx ++ l.drop (idx + 1))

/-- `Remove(u, name, env)` (redis.go:179-221).  The source also assigns
`r.LastActivity = time.Now()` on the looked-up record; no
`SetRedisResources` call follows, so the mapping is unchanged. -/
def Remove (s : Store) (u : User) (name env : String) (now : Int) :
    Except Err Unit × Store :=
  match (GetResource s name env false).1 with
  | none => (Except.error Err.ResourceDoesNotExist, s)
  | some r =>
    match removeCore s.reservations r.Key u.id now with
    | none => (Except.error Err.NotInQueue, s)
    | some l2 => (Except.ok (), { s with reservations := l2 })

/-- The scan of `GetPosition` (redis.go:232-244): `pos` is incremented for
every reservation of the resource, including the user's own, before the
user check, so the head of the queue yields 1. -/
def posScan : List Reservation → (String × String) → String → Nat → Option Nat
  | [], _, _, _ => none
  | res :: rest, key, uid, pos =>
    if res.resource.Key = key then
      if res.user.id = uid then some (pos + 1)
      else posScan rest key uid (pos + 1)
    else posScan rest key uid pos

/-- `GetPosition(u, name, env)` (redis.go:223-250). -/
def GetPosition (s : Store) (u : User) (name env : String) :
    Except Err Nat × Store :=
  match (GetResource s name env false).1 with
  | none => (Except.error Err.ResourceDoesNotExist, s)
  | some r =>
    match posScan s.reservations r.Key u.id 0 with
    | none => (Except.error Err.NotInQueue, s)
    | some pos => (Except.ok pos, s)

/-- The deletion loops of `RemoveResource` (redis.go:283-287) and `RemoveEnv`
(redis.go:302-307) range over the original slice while reassigning it to
`append(reservations[:idx], reservations[idx+1:]...)`.  The range reads the
backing array at each original index: `live` is the current content of the
`reservations` slice, `stale` the cells of the backing array beyond its
length (each in-place removal relegates the value of the last live cell to
the stale region), and `live ++ stale` is the backing array, whose length
never changes.  When a stale cell matches, `reservations[idx+1:]` has its
low bound beyond the slice length and Go raises a slice-bounds panic,
modelled as `none`.  The flag accumulates `exists` for `RemoveEnv`. -/
def goEraseLoop (p : Reservation → Bool) :
    Nat → Nat → List Reservation → List Reservation → Bool →
    Option (List Reservation × Bool)
  | 0, _, live, _, matched => some (live, matched)
  | fuel + 1, idx, live, stale, matched =>
    match (live ++ stale).get? idx with
    | none => some (live, matched)
    | some res =>
      if p res then
        if live.length < idx + 1 then none
        else
          let stale' := match live.getLast? with
            | some x => x :: stale
            | none => stale
          goEraseLoop p fuel (idx + 1) (live.eraseIdx idx) stale' true
      else goEraseLoop p fuel (idx + 1) live stale matched

/-- `RemoveResource(name, env)` (redis.go:272-293): fail if the resource is
absent; otherwise run the deletion loop over the reservation sequence,
persist it, delete the resource from the mapping and persist that. -/
def RemoveResource (s : Store) (name env : String) :
    Option (Except Err Unit × Store) :=
  match (GetResource s name env false).1 with
  | none => some (Except.error Err.ResourceDoesNotExist, s)
  | some r =>
    match goEraseLoop (fun res => decide (res.resource.Key = r.Key))
        s.reservations.length 0 s.reservations [] false with
    | none => none
    | some (l1, _) =>
      some (Except.ok (),
        { resources := eraseRes s.resources r.Key, reservations := l1 })

/-- The resource half of `RemoveEnv` (redis.go:309-314): delete every
mapping entry whose resource has this env. -/
def filterOutEnv : Resources → String → Resources
  | [], _ => []
  | (k, r) :: rest, env =>
    if r.env = env then filterOutEnv rest env else (k, r) :: filterOutEnv rest env

/-- Did any mapping entry's resource have this env? (the `exists` flag of
the resource half of `RemoveEnv`). -/
def anyResEnv : Resources → String → Bool
  | [], _ => false
  | (_, r) :: rest, env => if r.env = env then true else anyResEnv rest env

/-- `RemoveEnv(name, env)` (redis.go:295-323): run the deletion loop over
the reservation sequence keyed on the env, delete every matching mapping
entry, fail with `EnvDoesNotExist` when neither loop matched (before any
write-back), otherwise persist both collections.  The `name` argument is
unused in the source. -/
def RemoveEnv (s : Store) (_name env : String) :
    Option (Except Err Unit × Store) :=
  match goEraseLoop (fun res => decide (res.resource.env = env))
      s.reservations.length 0 s.reservations [] false with
  | none => none
  | some (l1, matchedRes) =>
    if matchedRes || anyResEnv s.resources env then
      some (Except.ok (),
        { resources := filterOutEnv s.resources env, reservations := l1 })
    else
      some (Except.error Err.EnvDoesNotExist, s)

/-- The per-resource filter used by `GetQueueForResource` (redis.go:374-378):
the reservations of one resource in stored order. -/
def filterKey : List Reservation → (String × String) → List Reservation
  | [], _ => []
  | res :: rest, key =>
    if res.resource.Key = key then res :: filterKey rest key
    else filterKey rest key

/-- The complement filter used by `ClearQueueForResource` (redis.go:466-471):
the reservations of every other resource in stored order. -/
def filterNotKey : List Reservation → (String × String) → List Reservation
  | [], _ => []
  | res :: rest, key =>
    if res.resource.Key ≠ key then res :: filterNotKey rest key
    else filterNotKey rest key

/-- `GetQueueForResource(name, env)` (redis.go:359-381). -/
def GetQueueForResource (s : Store) (name env : String) :
    Except Err Queue × Store :=
  match (GetResource s name env false).1 with
  | none => (Except.error Err.ResourceDoesNotExist, s)
  | some r =>
    (Except.ok { resource := r, reservations := filterKey s.reservations r.Key }, s)

/-- `ClearQueueForResource(name, env)` (redis.go:456-477).  The source also
assigns `r.LastActivity = time.Now()` on the looked-up record; no
`SetRedisResources` call follows, so the mapping is unchanged. -/
def ClearQueueForResource (s : Store) (name env : String) (_now : Int) :
    Except Err Unit × Store :=
  match (GetResource s name env false).1 with
  | none => (Except.error Err.ResourceDoesNotExist, s)
  | some r =>
    (Except.ok (), { s with reservations := filterNotKey s.reservations r.Key })

/-- The sweep of `PruneInactiveResources` (redis.go:483-497) over the
snapshot of mapping entries taken at entry (`GetResources`; its sorting of
the snapshot by key only fixes the visit order).  Per entry: fetch the
queue (a lookup failure is logged and then `HasReservations` dereferences
the nil queue, a panic, modelled as `none`); skip the resource when its
queue is non-empty; otherwise remove it when its snapshot `lastActivity` is
before `now - hours`; a domain error from `RemoveResource` is logged and
the sweep continues. -/
def pruneLoop (hours now : Int) :
    List ((String × String) × Resource) → Store → Option Store
  | [], s => some s
  | (_, r) :: rest, s =>
    match GetQueueForResource s r.name r.env with
    | (Except.error _, _) => none
    | (Except.ok q, _) =>
      if q.HasReservations then pruneLoop hours now rest s
      else if r.lastActivity < now - hours then
        match RemoveResource s r.name r.env with
        | none => none
        | some (_, s1) => pruneLoop hours now rest s1
      else pruneLoop hours now rest s

/-- `PruneInactiveResources(hours)` (redis.go:479-499), with
`oldestTime = now - hours` in hour units. -/
def PruneInactiveResources (s : Store) (hours now : Int) : Option Store :=
  pruneLoop hours now s.resources s

/-- One mutating pass over the store: the operation set a caller can drive
the store with. -/
inductive Op where
  | create (name env : String) (now : Int)
  | reserve (u : User) (name env : String) (now : Int)
  | remove (u : User) (name env : String) (now : Int)
  | getPosition (u : User) (name env : String)
  | removeResource (name env : String)
  | removeEnv (name env : String)
  | clearQueue (name env : String) (now : Int)
  | prune (hours now : Int)

/-- The persisted state after one operation; `none` when the operation
panicked (no state is written past the panic point). -/
def execOp (s : Store) : Op → Option Store
  | Op.create name env now => some (Create s name env now)
  | Op.reserve u name env now => some (Reserve s u name env now).2
  | Op.remove u name env now => some (Remove s u name env now).2
  | Op.getPosition u name env => some (GetPosition s u name env).2
  | Op.removeResource name env => (RemoveResource s name env).map Prod.snd
  | Op.removeEnv name env => (RemoveEnv s name env).map Prod.snd
  | Op.clearQueue name env now => some (ClearQueueForResource s name env now).2
  | Op.prune hours now => PruneInactiveResources s hours now

/-- Run a sequence of operations. -/
def execOps : Store → List Op → Option Store
  | s, [] => some s
  | s, op :: rest =>
    match execOp s op with
    | none => none
    | some s1 => execOps s1 rest

/-- How many reservations carry this user ID and this resource key. -/
def countFor : List Reservation → String → (String × String) → Nat
  | [], _, _ => 0
  | res :: rest, uid, key =>
    (if res.user.id = uid ∧ res.resource.Key = key then 1 else 0) +
      countFor rest uid key

/-- Well-formedness of the stored mapping: every entry is keyed by its
record's derived key, and no key occurs twice. -/
def WFResources : Resources → Bool
  | [] => true
  | (k, r) :: rest =>
    decide (r.Key = k) && decide (lookupRes rest k = none) && WFResources rest

/-- The raw backend documents as the key-value store holds them: `none` for
a key that has never been written (`redis.Nil` on Get), `some` for a stored,
decoded document. -/
structure RawStore where
  reservationsDoc : Option (List Reservation)
  resourcesDoc : Option Resources
deriving DecidableEq

/-- `SetRedisReservations` (redis.go:101-118): marshal and store the
reservation sequence unconditionally. -/
def SetRedisReservations (rs : RawStore) (l : List Reservation) : RawStore :=
  { rs with reservationsDoc := some l }

/-- `SetRedisResources` (redis.go:140-155): marshal and store the resource
mapping unconditionally. -/
def SetRedisResources (rs : RawStore) (m : Resources) : RawStore :=
  { rs with resourcesDoc := some m }

/-- `GetRedisReservations` (redis.go:83-99): read the document; on failure,
store the empty sequence and re-read; a second failure panics (`none`).
The source's unmarshalling of the stored blob is the identity here because
documents are kept decoded. -/
def GetRedisReservations (rs : RawStore) : Option (List Reservation × RawStore) :=
  match rs.reservationsDoc with
  | some l => some (l, rs)
  | none =>
    let rs1 := SetRedisReservations rs []
    match rs1.reservationsDoc with
    | some l => some (l, rs1)
    | none => none

/-- `GetRedisResources` (redis.go:120-138): read the document; on failure,
store the empty mapping and re-read; a second failure panics (`none`).  The
source's normalization of a decoded nil map to an empty map is the identity
here because the decoded mapping is already a list of entries. -/
def GetRedisResources (rs : RawStore) : Option (Resources × RawStore) :=
  match rs.resourcesDoc with
  | some m => some (m, rs)
  | none =>
    let rs1 := SetRedisResources rs []
    match rs1.resourcesDoc with
    | some m => some (m, rs1)
    | none => none

/-- The control flow of the backend get over raw fetch outcomes, abstracted
from the success of the intervening initialization: `fetch1` is the first
Get, `fetch2` the Get issued after storing the empty document; when both
fail the source panics (`none`) instead of returning data
(redis.go:86-93, 122-130). -/
def getDocOrInit (α : Type) (fetch1 fetch2 : Option α) : Option α :=
  match fetch1 with
  | some v => some v
  | none =>
    match fetch2 with
    | some v => some v
    | none => none

/-! ## Concrete scenarios -/

/-- The store of the C2 scenario: resources `("n","p")` and `("m","q")`,
with two reservations for the first key followed by one for the second. -/
def storeTwoPlusOne : Store :=
  { resources := [(("n", "p"), ⟨"n", "p", 0⟩), (("m", "q"), ⟨"m", "q", 0⟩)],
    reservations :=
      [⟨⟨"alice"⟩, ⟨"n", "p", 0⟩, 1⟩, ⟨⟨"bob"⟩, ⟨"n", "p", 0⟩, 2⟩,
       ⟨⟨"carol"⟩, ⟨"m", "q", 0⟩, 3⟩] }

/-- A store whose reservation sequence ends with two reservations of the
same resource. -/
def storeTwoTrailing : Store :=
  { resources := [(("n", "p"), ⟨"n", "p", 0⟩)],
    reservations := [⟨⟨"alice"⟩, ⟨"n", "p", 0⟩, 1⟩, ⟨⟨"bob"⟩, ⟨"n", "p", 0⟩, 2⟩] }

/-- The store of the C3 scenario: two staging resources and one prod
resource, one reservation each, staging reservations adjacent. -/
def storeTwoEnvs : Store :=
  { resources :=
      [(("r1", "staging"), ⟨"r1", "staging", 0⟩),
       (("r2", "staging"), ⟨"r2", "staging", 0⟩),
       (("r3", "prod"), ⟨"r3", "prod", 0⟩)],
    reservations :=
      [⟨⟨"alice"⟩, ⟨"r1", "staging", 0⟩, 1⟩, ⟨⟨"bob"⟩, ⟨"r2", "staging", 0⟩, 2⟩,
       ⟨⟨"carol"⟩, ⟨"r3", "prod", 0⟩, 3⟩] }

/-- A store holding one resource `("n","p")` with zero `lastActivity` and an
empty queue. -/
def storeOneIdle : Store :=
  { resources := [(("n", "p"), ⟨"n", "p", 0⟩)], reservations := [] }

/-- A store with an idle, old resource `("n","p")` and a resource
`("m","q")` that is old but held by alice. -/
def storePruneMix : Store :=
  { resources := [(("n", "p"), ⟨"n", "p", 0⟩), (("m", "q"), ⟨"m", "q", 0⟩)],
    reservations := [⟨⟨"alice"⟩, ⟨"m", "q", 0⟩, 1⟩] }

/-- A store whose `("n","p")` queue is alice, bob, carol (in stored order),
interleaved with dave's reservation for `("m","q")`. -/
def storeQueue3 : Store :=
  { resources := [(("n", "p"), ⟨"n", "p", 0⟩), (("m", "q"), ⟨"m", "q", 0⟩)],
    reservations :=
      [⟨⟨"alice"⟩, ⟨"n", "p", 0⟩, 1⟩, ⟨⟨"dave"⟩, ⟨"m", "q", 0⟩, 4⟩,
       ⟨⟨"bob"⟩, ⟨"n", "p", 0⟩, 2⟩, ⟨⟨"carol"⟩, ⟨"n", "p", 0⟩, 3⟩] }

/-! ## Shared lemmas -/

theorem countFor_le_of_sublist {l1 l2 : List Reservation} (h : List.Sublist l1 l2) :
    ∀ uid key, countFor l1 uid key ≤ countFor l2 uid key := by
  induction h with
  | slnil => intro uid key; exact Nat.le_refl _
  | cons a _ ih =>
    intro uid key
    simp only [countFor]
    exact (ih uid key).trans (Nat.le_add_left _ _)
  | cons₂ a _ ih =>
    intro uid key
    simp only [countFor]
    exact Nat.add_le_add_left (ih uid key) _

theorem countFor_append (l1 l2 : List Reservation) (uid : String)
    (key : String × String) :
    countFor (l1 ++ l2) uid key = countFor l1 uid key + countFor l2 uid key := by
  induction l1 with
  | nil => simp [countFor]
  | cons x rest ih => simp [countFor, ih, Nat.add_assoc]

theorem hasReservationFor_eq_false_iff (l : List Reservation) (uid : String)
    (key : String × String) :
    hasReservationFor l uid key = false ↔ countFor l uid key = 0 := by
  induction l with
  | nil => simp [hasReservationFor, countFor]
  | cons x rest ih =>
    by_cases hc : x.user.id = uid ∧ x.resource.Key = key
    · simp [hasReservationFor, countFor, hc]
    · simp [hasReservationFor, countFor, hc, ih]

theorem hasReservationFor_eq_true_iff (l : List Reservation) (uid : String)
    (key : String × String) :
    hasReservationFor l uid key = true ↔
      ∃ res ∈ l, res.user.id = uid ∧ res.resource.Key = key := by
  induction l with
  | nil => simp [hasReservationFor]
  | cons x rest ih =>
    by_cases hc : x.user.id = uid ∧ x.resource.Key = key
    · simp [hasReservationFor, hc]
    · simp [hasReservationFor, hc, ih]

theorem stampFirst_countFor (l : List Reservation) (key : String × String)
    (now : Int) (uid : String) (k : String × String) :
    countFor (stampFirst l key now) uid k = countFor l uid k := by
  induction l with
  | nil => simp [stampFirst]
  | cons x rest ih =>
    by_cases hc : x.resource.Key = key
    · simp [stampFirst, hc, countFor]
    · simp [stampFirst, hc, countFor, ih]

theorem filterNotKey_sublist (l : List Reservation) (key : String × String) :
    List.Sublist (filterNotKey l key) l := by
  induction l with
  | nil => simp [filterNotKey]
  | cons x rest ih =>
    by_cases hc : x.resource.Key ≠ key
    · simpa [filterNotKey, hc] using List.Sublist.cons₂ x ih
    · simpa [filterNotKey, hc] using List.Sublist.cons x ih

theorem goEraseLoop_sublist (p : Reservation → Bool) :
    ∀ (fuel idx : Nat) (live stale : List Reservation) (matched : Bool)
      (out : List Reservation) (b : Bool),
      goEraseLoop p fuel idx live stale matched = some (out, b) →
        List.Sublist out live := by
  intro fuel
  induction fuel with
  | zero =>
    intro idx live stale matched out b h
    simp [goEraseLoop] at h
    exact h.1 ▸ List.Sublist.refl _
  | succ n ih =>
    intro idx live stale matched out b h
    simp only [goEraseLoop] at h
    split at h
    · simp at h
      exact h.1 ▸ List.Sublist.refl _
    · split at h
      · split at h
        · cases h
        · exact (ih _ _ _ _ _ _ h).trans (List.eraseIdx_sublist live idx)
      · exact ih _ _ _ _ _ _ h

theorem GetResource_snd_reservations (s : Store) (name env : String) (c : Bool) :
    (GetResource s name env c).2.reservations = s.reservations := by
  simp only [GetResource]
  split
  · rfl
  · split <;> rfl

theorem lookupRes_setRes (m : Resources) (key : String × String) (r : Resource)
    (k : String × String) :
    lookupRes (setRes m key r) k = if k = key then some r else lookupRes m k := by
  induction m with
  | nil =>
    by_cases hk : k = key
    · subst hk; simp [setRes, lookupRes]
    · have hk' : ¬(key = k) := fun h => hk h.symm
      simp [setRes, lookupRes, hk, hk']
  | cons e rest ih =>
    obtain ⟨k0, r0⟩ := e
    by_cases h0 : k0 = key
    · subst h0
      by_cases hk : k = k0
      · subst hk; simp [setRes, lookupRes]
      · have hk' : ¬(k0 = k) := fun h => hk h.symm
        simp [setRes, lookupRes, hk, hk']
    · by_cases hk : k0 = k
      · subst hk
        simp [setRes, lookupRes, h0]
      · simp [setRes, lookupRes, h0, hk, ih]

theorem lookupRes_eraseRes (m : Resources) (key k : String × String) :
    lookupRes (eraseRes m key) k = if k = key then none else lookupRes m k := by
  induction m with
  | nil =>
    by_cases hk : k = key <;> simp [eraseRes, lookupRes, hk]
  | cons e rest ih =>
    obtain ⟨k0, r0⟩ := e
    by_cases h0 : k0 = key
    · subst h0
      by_cases hk : k = k0
      · subst hk; simp [eraseRes, lookupRes, ih]
      · have hk' : ¬(k0 = k) := fun h => hk h.symm
        simp [eraseRes, lookupRes, hk, hk', ih]
    · by_cases hk : k0 = k
      · subst hk
        simp [eraseRes, lookupRes, h0, ih]
      · simp [eraseRes, lookupRes, h0, hk, ih]

theorem lookupRes_filterOutEnv_none (m : Resources) (env : String)
    (k : String × String) (h : lookupRes m k = none) :
    lookupRes (filterOutEnv m env) k = none := by
  induction m with
  | nil => simp [filterOutEnv, lookupRes]
  | cons e rest ih =>
    obtain ⟨k0, r0⟩ := e
    by_cases hk : k0 = k
    · subst hk
      simp [lookupRes] at h
    · simp only [lookupRes, if_neg hk] at h
      by_cases he : r0.env = env
      · simp [filterOutEnv, he, ih h]
      · simp [filterOutEnv, he, lookupRes, hk, ih h]

theorem WFResources_lookup {m : Resources} (hwf : WFResources m = true)
    {k : String × String} {r : Resource} (h : lookupRes m k = some r) :
    r.Key = k := by
  induction m with
  | nil => simp [lookupRes] at h
  | cons e rest ih =>
    obtain ⟨k0, r0⟩ := e
    simp only [WFResources, Bool.and_eq_true, decide_eq_true_eq] at hwf
    by_cases hk : k0 = k
    · subst hk
      simp only [lookupRes, if_pos rfl] at h
      cases h
      exact hwf.1.1
    · simp only [lookupRes, if_neg hk] at h
      exact ih hwf.2 h

theorem WFResources_setRes {m : Resources} (hwf : WFResources m = true)
    {key : String × String} {r : Resource} (hr : r.Key = key) :
    WFResources (setRes m key r) = true := by
  induction m with
  | nil => simp [setRes, WFResources, lookupRes, hr]
  | cons e rest ih =>
    obtain ⟨k0, r0⟩ := e
    simp only [WFResources, Bool.and_eq_true, decide_eq_true_eq] at hwf
    by_cases h0 : k0 = key
    · subst h0
      simp [setRes, WFResources, hr, hwf.1.2, hwf.2]
    · have h0' : ¬(key = k0) := fun h => h0 h.symm
      simp [setRes, h0, WFResources, hwf.1.1, lookupRes_setRes, h0',
        hwf.1.2, ih hwf.2]

theorem WFResources_eraseRes {m : Resources} (hwf : WFResources m = true)
    (key : String × String) :
    WFResources (eraseRes m key) = true := by
  induction m with
  | nil => simp [eraseRes, WFResources]
  | cons e rest ih =>
    obtain ⟨k0, r0⟩ := e
    simp only [WFResources, Bool.and_eq_true, decide_eq_true_eq] at hwf
    by_cases h0 : k0 = key
    · subst h0
      simp [eraseRes, ih hwf.2]
    · have h0' : ¬(k0 = key) := h0
      simp [eraseRes, h0, WFResources, hwf.1.1, lookupRes_eraseRes, h0',
        hwf.1.2, ih hwf.2]

theorem WFResources_filterOutEnv {m : Resources} (hwf : WFResources m = true)
    (env : String) :
    WFResources (filterOutEnv m env) = true := by
  induction m with
  | nil => simp [filterOutEnv, WFResources]
  | cons e rest ih =>
    obtain ⟨k0, r0⟩ := e
    simp only [WFResources, Bool.and_eq_true, decide_eq_true_eq] at hwf
    by_cases he : r0.env = env
    · simp [filterOutEnv, he, ih hwf.2]
    · simp [filterOutEnv, he, WFResources, hwf.1.1, ih hwf.2,
        lookupRes_filterOutEnv_none _ _ _ hwf.1.2]

theorem GetResource_create_spec (s : Store) (name env : String) :
    ∃ r s1, GetResource s name env true = (some r, s1) ∧
      s1.reservations = s.reservations ∧
      (WFResources s.resources = true → r.Key = ResourceKey name env) := by
  cases hl : lookupRes s.resources (ResourceKey name env) with
  | some r =>
    refine ⟨r, s, ?_, rfl, fun hwf => WFResources_lookup hwf hl⟩
    simp [GetResource, hl]
  | none =>
    refine ⟨⟨name, env, 0⟩,
      { s with resources :=
          setRes s.resources (ResourceKey name env) ⟨name, env, 0⟩ },
      ?_, rfl, fun _ => rfl⟩
    simp [GetResource, hl]
    rfl

theorem removeCore_countFor {l : List Reservation} {key : String × String}
    {uid : String} {now : Int} {l2 : List Reservation}
    (h : removeCore l key uid now = some l2) :
    ∀ uid2 k2, countFor l2 uid2 k2 ≤ countFor l uid2 k2 := by
  unfold removeCore at h
  split at h
  · cases h
  · rename_i idx pos heq
    injection h with h
    subst h
    intro uid2 k2
    have hsub : List.Sublist (l.take idx ++ l.drop (idx + 1)) l := by
      rw [← List.eraseIdx_eq_take_drop_succ]
      exact List.eraseIdx_sublist l idx
    by_cases hp : pos = 1
    · rw [if_pos hp, stampFirst_countFor]
      exact countFor_le_of_sublist hsub uid2 k2
    · rw [if_neg hp]
      exact countFor_le_of_sublist hsub uid2 k2

theorem GetPosition_snd (s : Store) (u : User) (name env : String) :
    (GetPosition s u name env).2 = s := by
  unfold GetPosition
  split
  · rfl
  · split <;> rfl

theorem Remove_snd_resources (s : Store) (u : User) (name env : String)
    (now : Int) :
    (Remove s u name env now).2.resources = s.resources := by
  unfold Remove
  split
  · rfl
  · split <;> rfl

theorem GetResource_WF (s : Store) (name env : String) (c : Bool)
    (hwf : WFResources s.resources = true) :
    WFResources (GetResource s name env c).2.resources = true := by
  simp only [GetResource]
  split
  · exact hwf
  · split
    · exact WFResources_setRes hwf rfl
    · exact hwf

theorem Reserve_snd_resources_WF (s : Store) (u : User) (name env : String)
    (now : Int) (hwf : WFResources s.resources = true) :
    WFResources (Reserve s u name env now).2.resources = true := by
  unfold Reserve
  split
  · rename_i r s1 heq
    have h1 : WFResources s1.resources = true := by
      have h2 := GetResource_WF s name env true hwf
      rw [heq] at h2
      exact h2
    split
    · exact h1
    · exact h1
  · rename_i s1 heq
    have h2 := GetResource_WF s name env true hwf
    rw [heq] at h2
    exact h2

theorem Reserve_countFor (s : Store) (u : User) (name env : String) (now : Int)
    (hu : ∀ uid key, countFor s.reservations uid key ≤ 1) :
    ∀ uid key, countFor (Reserve s u name env now).2.reservations uid key ≤ 1 := by
  obtain ⟨r, s2, heq, hres, _⟩ := GetResource_create_spec s name env
  intro uid key
  unfold Reserve
  rw [heq]
  dsimp only
  cases hg : hasReservationFor s2.reservations u.id r.Key with
  | true =>
    simp only [hg, if_true]
    rw [hres]
    exact hu uid key
  | false =>
    simp only [hg, Bool.false_eq_true, if_false]
    rw [countFor_append]
    by_cases hc : u.id = uid ∧ ({ r with lastActivity := now } : Resource).Key = key
    · have hkey : ({ r with lastActivity := now } : Resource).Key = r.Key := rfl
      have h0 : countFor s2.reservations uid key = 0 := by
        rw [← hc.1, ← hc.2, hkey]
        exact (hasReservationFor_eq_false_iff s2.reservations u.id r.Key).mp hg
      rw [h0]
      simp [countFor, hc]
    · have h1 : countFor
          [{ user := u, resource := { r with lastActivity := now }, time := now }]
          uid key = 0 := by
        simp [countFor, hc]
      rw [h1, hres]
      simpa using hu uid key

theorem RemoveResource_spec {s : Store} {name env : String}
    {e : Except Err Unit} {s2 : Store}
    (h : RemoveResource s name env = some (e, s2)) :
    List.Sublist s2.reservations s.reservations ∧
    (WFResources s.resources = true → WFResources s2.resources = true) := by
  unfold RemoveResource at h
  split at h
  · injection h with h
    injection h with h1 h2
    subst h2
    exact ⟨List.Sublist.refl _, fun x => x⟩
  · rename_i r heq0
    split at h
    · cases h
    · rename_i l1 b heq
      injection h with h
      injection h with h1 h2
      subst h2
      constructor
      · exact goEraseLoop_sublist _ _ _ _ _ _ _ _ heq
      · intro hwf
        exact WFResources_eraseRes hwf _

theorem RemoveEnv_spec {s : Store} {name env : String}
    {e : Except Err Unit} {s2 : Store}
    (h : RemoveEnv s name env = some (e, s2)) :
    List.Sublist s2.reservations s.reservations ∧
    (WFResources s.resources = true → WFResources s2.resources = true) := by
  unfold RemoveEnv at h
  split at h
  · cases h
  · rename_i l1 b heq
    split at h
    · injection h with h
      injection h with h1 h2
      subst h2
      constructor
      · exact goEraseLoop_sublist _ _ _ _ _ _ _ _ heq
      · intro hwf
        exact WFResources_filterOutEnv hwf _
    · injection h with h
      injection h with h1 h2
      subst h2
      exact ⟨List.Sublist.refl _, fun x => x⟩

theorem ClearQueue_spec (s : Store) (name env : String) (now : Int) :
    List.Sublist (ClearQueueForResource s name env now).2.reservations
      s.reservations ∧
    (ClearQueueForResource s name env now).2.resources = s.resources := by
  unfold ClearQueueForResource
  split
  · exact ⟨List.Sublist.refl _, rfl⟩
  · exact ⟨filterNotKey_sublist _ _, rfl⟩

theorem pruneLoop_spec (hours now : Int) :
    ∀ (entries : List ((String × String) × Resource)) (s s' : Store),
      pruneLoop hours now entries s = some s' →
      List.Sublist s'.reservations s.reservations ∧
      (WFResources s.resources = true → WFResources s'.resources = true) := by
  intro entries
  induction entries with
  | nil =>
    intro s s' h
    simp only [pruneLoop] at h
    injection h with h
    subst h
    exact ⟨List.Sublist.refl _, fun x => x⟩
  | cons e rest ih =>
    intro s s' h
    obtain ⟨k, r⟩ := e
    simp only [pruneLoop] at h
    split at h
    · cases h
    · split at h
      · exact ih s s' h
      · split at h
        · split at h
          · cases h
          · rename_i p heq
            obtain ⟨e1, s1⟩ := p
            obtain ⟨h1, h2⟩ := RemoveResource_spec heq
            obtain ⟨h3, h4⟩ := ih _ _ h
            exact ⟨h3.trans h1, fun hwf => h4 (h2 hwf)⟩
        · exact ih s s' h

theorem execOp_inv {s : Store} {op : Op} {s1 : Store} (h : execOp s op = some s1)
    (hwf : WFResources s.resources = true)
    (hu : ∀ uid key, countFor s.reservations uid key ≤ 1) :
    WFResources s1.resources = true ∧
    (∀ uid key, countFor s1.reservations uid key ≤ 1) := by
  cases op with
  | create name env now =>
    simp only [execOp, Create] at h
    injection h with h
    subst h
    refine ⟨GetResource_WF s name env true hwf, ?_⟩
    intro uid key
    rw [GetResource_snd_reservations]
    exact hu uid key
  | reserve u name env now =>
    simp only [execOp] at h
    injection h with h
    subst h
    exact ⟨Reserve_snd_resources_WF s u name env now hwf,
      Reserve_countFor s u name env now hu⟩
  | remove u name env now =>
    simp only [execOp] at h
    injection h with h
    subst h
    refine ⟨?_, ?_⟩
    · rw [Remove_snd_resources]
      exact hwf
    · intro uid key
      unfold Remove
      split
      · exact hu uid key
      · split
        · exact hu uid key
        · rename_i r heq0 l2 heq
          exact (removeCore_countFor heq uid key).trans (hu uid key)
  | getPosition u name env =>
    simp only [execOp] at h
    injection h with h
    subst h
    rw [GetPosition_snd]
    exact ⟨hwf, hu⟩
  | removeResource name env =>
    simp only [execOp] at h
    cases hrr : RemoveResource s name env with
    | none => rw [hrr] at h; cases h
    | some p =>
      obtain ⟨e1, s2⟩ := p
      rw [hrr] at h
      simp only [Option.map_some'] at h
      injection h with h
      subst h
      obtain ⟨hsub, hwf2⟩ := RemoveResource_spec hrr
      exact ⟨hwf2 hwf,
        fun uid key => (countFor_le_of_sublist hsub uid key).trans (hu uid key)⟩
  | removeEnv name env =>
    simp only [execOp] at h
    cases hrr : RemoveEnv s name env with
    | none => rw [hrr] at h; cases h
    | some p =>
      obtain ⟨e1, s2⟩ := p
      rw [hrr] at h
      simp only [Option.map_some'] at h
      injection h with h
      subst h
      obtain ⟨hsub, hwf2⟩ := RemoveEnv_spec hrr
      exact ⟨hwf2 hwf,
        fun uid key => (countFor_le_of_sublist hsub uid key).trans (hu uid key)⟩
  | clearQueue name env now =>
    simp only [execOp] at h
    injection h with h
    subst h
    obtain ⟨hsub, hresq⟩ := ClearQueue_spec s name env now
    refine ⟨?_, ?_⟩
    · rw [hresq]
      exact hwf
    · exact fun uid key => (countFor_le_of_sublist hsub uid key).trans (hu uid key)
  | prune hours now =>
    simp only [execOp, PruneInactiveResources] at h
    obtain ⟨hsub, hwf2⟩ := pruneLoop_spec hours now s.resources s s1 h
    exact ⟨hwf2 hwf,
      fun uid key => (countFor_le_of_sublist hsub uid key).trans (hu uid key)⟩

theorem execOps_inv :
    ∀ (ops : List Op) (s0 s : Store), execOps s0 ops = some s →
      WFResources s0.resources = true →
      (∀ uid key, countFor s0.reservations uid key ≤ 1) →
      WFResources s.resources = true ∧
      (∀ uid key, countFor s.reservations uid key ≤ 1) := by
  intro ops
  induction ops with
  | nil =>
    intro s0 s h hwf hu
    simp only [execOps] at h
    injection h with h
    subst h
    exact ⟨hwf, hu⟩
  | cons op rest ih =>
    intro s0 s h hwf hu
    simp only [execOps] at h
    split at h
    · cases h
    · rename_i s1 heq
      obtain ⟨hwf1, hu1⟩ := execOp_inv heq hwf hu
      exact ih s1 s h hwf1 hu1

theorem Reserve_already_iff (s : Store) (u : User) (name env : String)
    (now : Int) (hwf : WFResources s.resources = true) :
    (Reserve s u name env now).1 = Except.error Err.AlreadyInQueue ↔
      ∃ res ∈ s.reservations, res.user.id = u.id ∧
        res.resource.Key = ResourceKey name env := by
  obtain ⟨r, s2, heq, hres, hkey⟩ := GetResource_create_spec s name env
  have hk := hkey hwf
  unfold Reserve
  rw [heq]
  dsimp only
  cases hg : hasReservationFor s2.reservations u.id r.Key with
  | true =>
    have hex := (hasReservationFor_eq_true_iff s2.reservations u.id r.Key).mp hg
    rw [hres, hk] at hex
    simp only [hg, if_true]
    simp [hex]
  | false =>
    simp only [hg, Bool.false_eq_true, if_false]
    constructor
    · intro hcontra
      cases hcontra
    · intro hex
      rw [← hres, ← hk] at hex
      have := (hasReservationFor_eq_true_iff s2.reservations u.id r.Key).mpr hex
      rw [this] at hg
      cases hg

/-! ## C5 -/

/-- C5: starting from empty collections, after any sequence of store
operations at most one reservation with a given user ID and resource key
exists in the reservation sequence; and `Reserve` fails with
`AlreadyInQueue` exactly when the user already holds a reservation for that
resource. -/
theorem C5_single_membership_and_already_in_queue :
    ∀ (ops : List Op) (s : Store), execOps emptyStore ops = some s →
      (∀ uid key, countFor s.reservations uid key ≤ 1) ∧
      (∀ (u : User) (name env : String) (now : Int),
        (Reserve s u name env now).1 = Except.error Err.AlreadyInQueue ↔
          ∃ res ∈ s.reservations, res.user.id = u.id ∧
            res.resource.Key = ResourceKey name env) := by
  intro ops s h
  have hinv := execOps_inv ops emptyStore s h (by decide)
    (by intro uid key; simp [emptyStore, countFor])
  exact ⟨hinv.2, fun u name env now => Reserve_already_iff s u name env now hinv.1⟩

/-- Witness for C5 after one reserve operation from the empty store: the
membership count is at most one, a second reserve for the same user fails
with `AlreadyInQueue`, and a reserve for another user does not. -/
theorem C5_witness :
    countFor [⟨⟨"alice"⟩, ⟨"n", "p", 1⟩, 1⟩] "alice" ("n", "p") ≤ 1 ∧
    (Reserve (⟨[(("n", "p"), ⟨"n", "p", 0⟩)], [⟨⟨"alice"⟩, ⟨"n", "p", 1⟩, 1⟩]⟩ : Store)
        ⟨"alice"⟩ "n" "p" 2).1 = Except.error Err.AlreadyInQueue ∧
    (Reserve (⟨[(("n", "p"), ⟨"n", "p", 0⟩)], [⟨⟨"alice"⟩, ⟨"n", "p", 1⟩, 1⟩]⟩ : Store)
        ⟨"bob"⟩ "n" "p" 2).1 ≠ Except.error Err.AlreadyInQueue := by
  have h := C5_single_membership_and_already_in_queue
    [Op.reserve ⟨"alice"⟩ "n" "p" 1]
    ⟨[(("n", "p"), ⟨"n", "p", 0⟩)], [⟨⟨"alice"⟩, ⟨"n", "p", 1⟩, 1⟩]⟩ (by decide)
  refine ⟨h.1 "alice" ("n", "p"), ?_, ?_⟩
  · exact (h.2 ⟨"alice"⟩ "n" "p" 2).mpr
      ⟨⟨⟨"alice"⟩, ⟨"n", "p", 1⟩, 1⟩, by simp, rfl, rfl⟩
  · intro hcontra
    obtain ⟨res, hmem, h1, h2⟩ := (h.2 ⟨"bob"⟩ "n" "p" 2).mp hcontra
    simp at hmem
    subst hmem
    exact absurd h1 (by decide)

theorem removeScan_shift (k : String × String) (uid : String) :
    ∀ (l : List Reservation) (i pos : Nat),
      removeScan l k uid i pos =
        (removeScan l k uid 0 0).map (fun ab => (ab.1 + i, ab.2 + pos)) := by
  intro l
  induction l with
  | nil => intro i pos; simp [removeScan]
  | cons z l' ih =>
    intro i pos
    by_cases hzk : z.resource.Key = k
    · by_cases hzu : z.user.id = uid
      · simp only [removeScan, if_pos hzk, if_pos hzu, Option.map_some',
          Option.some.injEq, Prod.mk.injEq]
        omega
      · simp only [removeScan, if_pos hzk, if_neg hzu]
        rw [ih (i + 1) (pos + 1), ih 1 1]
        cases removeScan l' k uid 0 0 with
        | none => simp
        | some ab =>
          simp only [Option.map_some', Option.some.injEq, Prod.mk.injEq]
          omega
    · simp only [removeScan, if_neg hzk]
      rw [ih (i + 1) pos, ih 1 0]
      cases removeScan l' k uid 0 0 with
      | none => simp
      | some ab =>
        simp only [Option.map_some', Option.some.injEq, Prod.mk.injEq]
        omega

theorem filterKey_stampFirst_cons {l : List Reservation} {k : String × String}
    {x : Reservation} {t : List Reservation} (h : filterKey l k = x :: t)
    (now : Int) :
    filterKey (stampFirst l k now) k = { x with time := now } :: t := by
  induction l with
  | nil => simp [filterKey] at h
  | cons z l' ih =>
    by_cases hzk : z.resource.Key = k
    · simp only [filterKey, if_pos hzk, List.cons.injEq] at h
      obtain ⟨hz, ht⟩ := h
      subst hz
      simp [stampFirst, hzk, filterKey, ht]
    · simp only [filterKey, if_neg hzk] at h
      simp [stampFirst, hzk, filterKey, ih h]

theorem filterNotKey_stampFirst (l : List Reservation) (k : String × String)
    (now : Int) :
    filterNotKey (stampFirst l k now) k = filterNotKey l k := by
  induction l with
  | nil => simp [stampFirst]
  | cons z l' ih =>
    by_cases hzk : z.resource.Key = k
    · simp [stampFirst, hzk, filterNotKey]
    · simp [stampFirst, hzk, filterNotKey, ih]

theorem removeCore_head {l : List Reservation} {k : String × String}
    {uid : String} {x y : Reservation} {rest : List Reservation} (now : Int)
    (hq : filterKey l k = x :: y :: rest) (hx : x.user.id = uid) :
    ∃ m, removeCore l k uid now = some m ∧
      filterKey m k = { y with time := now } :: rest ∧
      filterNotKey m k = filterNotKey l k := by
  induction l with
  | nil => simp [filterKey] at hq
  | cons z l' ih =>
    by_cases hzk : z.resource.Key = k
    · simp only [filterKey, if_pos hzk, List.cons.injEq] at hq
      obtain ⟨hz, ht⟩ := hq
      subst hz
      refine ⟨stampFirst l' k now, ?_, ?_, ?_⟩
      · simp [removeCore, removeScan, hzk, hx]
      · exact filterKey_stampFirst_cons ht now
      · rw [filterNotKey_stampFirst]
        simp [filterNotKey, hzk]
    · simp only [filterKey, if_neg hzk] at hq
      obtain ⟨m', h1, h2, h3⟩ := ih hq
      unfold removeCore at h1
      cases hscan : removeScan l' k uid 0 0 with
      | none => rw [hscan] at h1; cases h1
      | some ab =>
        obtain ⟨idx, pos⟩ := ab
        rw [hscan] at h1
        injection h1 with h1
        refine ⟨z :: m', ?_, ?_, ?_⟩
        · unfold removeCore
          simp only [removeScan, if_neg hzk]
          rw [removeScan_shift, hscan]
          simp only [Option.map_some', Nat.add_zero]
          by_cases hp : pos = 1
          · rw [if_pos hp] at h1
            rw [if_pos hp, List.take_succ_cons, List.drop_succ_cons,
              List.cons_append, ← h1]
            simp [stampFirst, hzk]
          · rw [if_neg hp] at h1
            rw [if_neg hp, List.take_succ_cons, List.drop_succ_cons,
              List.cons_append, h1]
        · simp [filterKey, hzk, h2]
        · simp [filterNotKey, hzk, h3]

theorem removeScan_found {l : List Reservation} {k : String × String}
    {uid : String} (h : hasReservationFor l uid k = true) :
    ∃ idx pos res, removeScan l k uid 0 0 = some (idx, pos) ∧ 1 ≤ pos ∧
      l.get? idx = some res ∧ res.user.id = uid ∧ res.resource.Key = k := by
  induction l with
  | nil => simp [hasReservationFor] at h
  | cons z l' ih =>
    by_cases hc : z.user.id = uid ∧ z.resource.Key = k
    · refine ⟨0, 1, z, ?_, Nat.le_refl 1, rfl, hc.1, hc.2⟩
      simp [removeScan, hc.1, hc.2]
    · simp only [hasReservationFor, if_neg hc] at h
      obtain ⟨idx, pos, res, h1, h2, h3, h4, h5⟩ := ih h
      by_cases hzk : z.resource.Key = k
      · have hzu : ¬(z.user.id = uid) := fun hu => hc ⟨hu, hzk⟩
        refine ⟨idx + 1, pos + 1, res, ?_, by omega, by simpa using h3, h4, h5⟩
        simp only [removeScan, if_pos hzk, if_neg hzu]
        rw [removeScan_shift, h1]
        simp
      · refine ⟨idx + 1, pos, res, ?_, h2, by simpa using h3, h4, h5⟩
        simp only [removeScan, if_neg hzk]
        rw [removeScan_shift, h1]
        simp

theorem removeScan_pos_ge_one {l : List Reservation} {k : String × String}
    {uid : String} {idx pos : Nat}
    (h : removeScan l k uid 0 0 = some (idx, pos)) : 1 ≤ pos := by
  induction l generalizing idx pos with
  | nil => simp [removeScan] at h
  | cons z l' ih =>
    by_cases hzk : z.resource.Key = k
    · by_cases hzu : z.user.id = uid
      · simp only [removeScan, if_pos hzk, if_pos hzu, Option.some.injEq,
          Prod.mk.injEq] at h
        omega
      · simp only [removeScan, if_pos hzk, if_neg hzu] at h
        rw [removeScan_shift] at h
        cases hscan : removeScan l' k uid 0 0 with
        | none => rw [hscan] at h; cases h
        | some ab =>
          rw [hscan] at h
          simp only [Option.map_some', Option.some.injEq, Prod.mk.injEq] at h
          omega
    · simp only [removeScan, if_neg hzk] at h
      rw [removeScan_shift] at h
      cases hscan : removeScan l' k uid 0 0 with
      | none => rw [hscan] at h; cases h
      | some ab =>
        obtain ⟨i0, p0⟩ := ab
        rw [hscan] at h
        simp only [Option.map_some', Option.some.injEq, Prod.mk.injEq] at h
        have := ih hscan
        omega

theorem removeScan_pos_one_is_head {l : List Reservation} {k : String × String}
    {uid : String} {idx : Nat} {x : Reservation} {tail : List Reservation}
    (h : removeScan l k uid 0 0 = some (idx, 1)) (hq : filterKey l k = x :: tail) :
    x.user.id = uid := by
  induction l generalizing idx x tail with
  | nil => simp [removeScan] at h
  | cons z l' ih =>
    by_cases hzk : z.resource.Key = k
    · simp only [filterKey, if_pos hzk, List.cons.injEq] at hq
      by_cases hzu : z.user.id = uid
      · rw [← hq.1]
        exact hzu
      · simp only [removeScan, if_pos hzk, if_neg hzu] at h
        rw [removeScan_shift] at h
        cases hscan : removeScan l' k uid 0 0 with
        | none => rw [hscan] at h; cases h
        | some ab =>
          obtain ⟨i0, p0⟩ := ab
          rw [hscan] at h
          simp only [Option.map_some', Option.some.injEq, Prod.mk.injEq] at h
          have := removeScan_pos_ge_one hscan
          omega
    · simp only [filterKey, if_neg hzk] at hq
      simp only [removeScan, if_neg hzk] at h
      rw [removeScan_shift] at h
      cases hscan : removeScan l' k uid 0 0 with
      | none => rw [hscan] at h; cases h
      | some ab =>
        obtain ⟨i0, p0⟩ := ab
        rw [hscan] at h
        simp only [Option.map_some', Option.some.injEq, Prod.mk.injEq] at h
        have hp0 : p0 = 1 := by omega
        subst hp0
        exact ih hscan hq

theorem removeCore_nonhead {l : List Reservation} {k : String × String}
    {uid : String} {x : Reservation} {tail : List Reservation} (now : Int)
    (hq : filterKey l k = x :: tail) (hx : ¬(x.user.id = uid))
    (hhas : hasReservationFor l uid k = true) :
    ∃ idx res, l.get? idx = some res ∧ res.user.id = uid ∧
      res.resource.Key = k ∧
      removeCore l k uid now = some (l.take idx ++ l.drop (idx + 1)) := by
  induction l with
  | nil => simp [filterKey] at hq
  | cons z l' ih =>
    by_cases hzk : z.resource.Key = k
    · simp only [filterKey, if_pos hzk, List.cons.injEq] at hq
      obtain ⟨hz, ht⟩ := hq
      have hzu : ¬(z.user.id = uid) := by
        rw [hz]
        exact hx
      have hc : ¬(z.user.id = uid ∧ z.resource.Key = k) := fun hh => hzu hh.1
      simp only [hasReservationFor, if_neg hc] at hhas
      obtain ⟨idx, pos, res, h1, h2, h3, h4, h5⟩ := removeScan_found hhas
      refine ⟨idx + 1, res, by simpa using h3, h4, h5, ?_⟩
      unfold removeCore
      simp only [removeScan, if_pos hzk, if_neg hzu]
      rw [removeScan_shift, h1]
      simp only [Option.map_some']
      have hp : ¬(pos + 1 = 1) := by omega
      rw [if_neg hp, List.take_succ_cons, List.drop_succ_cons, List.cons_append]
    · simp only [filterKey, if_neg hzk] at hq
      have hc : ¬(z.user.id = uid ∧ z.resource.Key = k) := fun hh => hzk hh.2
      simp only [hasReservationFor, if_neg hc] at hhas
      obtain ⟨idx, res, h3, h4, h5, h6⟩ := ih hq hhas
      refine ⟨idx + 1, res, by simpa using h3, h4, h5, ?_⟩
      unfold removeCore at h6 ⊢
      cases hscan : removeScan l' k uid 0 0 with
      | none => rw [hscan] at h6; cases h6
      | some ab =>
        obtain ⟨idx0, pos0⟩ := ab
        rw [hscan] at h6
        injection h6 with h6
        simp only [removeScan, if_neg hzk]
        rw [removeScan_shift, hscan]
        simp only [Option.map_some', Nat.add_zero]
        rw [List.take_succ_cons, List.drop_succ_cons, List.cons_append]
        by_cases hp0 : pos0 = 1
        · -- position 1 would mean the erased entry is the queue head x,
          -- whose user is not uid: impossible
          exfalso
          subst hp0
          exact hx (removeScan_pos_one_is_head hscan hq)
        · rw [if_neg hp0] at h6
          rw [if_neg hp0, h6]
          simp [List.take_succ_cons, List.drop_succ_cons]

/-! ## C6 -/

/-- C6: on a queue of length two or more, `Remove` of the head resets the
new head's enqueue time to the removal instant and leaves every other
surviving reservation unchanged (the queue tail keeps its original records,
and reservations of other resources are untouched); `Remove` of a non-head
entry erases exactly that user's entry, every other entry surviving as its
original record with its enqueue time unchanged. -/
theorem C6_head_removal_restamps_new_head_only :
    ∀ (s : Store) (u : User) (name env : String) (now : Int) (r : Resource),
      lookupRes s.resources (ResourceKey name env) = some r →
      r.Key = ResourceKey name env →
      (∀ x y rest,
        filterKey s.reservations (ResourceKey name env) = x :: y :: rest →
        x.user.id = u.id →
        ∃ s', Remove s u name env now = (Except.ok (), s') ∧
          filterKey s'.reservations (ResourceKey name env) =
            { y with time := now } :: rest ∧
          filterNotKey s'.reservations (ResourceKey name env) =
            filterNotKey s.reservations (ResourceKey name env)) ∧
      (∀ x tail,
        filterKey s.reservations (ResourceKey name env) = x :: tail →
        ¬(x.user.id = u.id) →
        hasReservationFor s.reservations u.id (ResourceKey name env) = true →
        ∃ s' idx res, Remove s u name env now = (Except.ok (), s') ∧
          s.reservations.get? idx = some res ∧ res.user.id = u.id ∧
          res.resource.Key = ResourceKey name env ∧
          s'.reservations = s.reservations.take idx ++
            s.reservations.drop (idx + 1)) := by
  intro s u name env now r hr hkey
  have hg : (GetResource s name env false).1 = some r := by
    simp [GetResource, hr]
  constructor
  · intro x y rest hq hx
    obtain ⟨m, h1, h2, h3⟩ := removeCore_head now hq hx
    refine ⟨{ s with reservations := m }, ?_, h2, h3⟩
    unfold Remove
    rw [hg]
    dsimp only
    rw [hkey, h1]
  · intro x tail hq hx hhas
    obtain ⟨idx, res, h3, h4, h5, h6⟩ := removeCore_nonhead now hq hx hhas
    refine ⟨{ s with reservations :=
        s.reservations.take idx ++ s.reservations.drop (idx + 1) },
      idx, res, ?_, h3, h4, h5, rfl⟩
    unfold Remove
    rw [hg]
    dsimp only
    rw [hkey, h6]

/-- Witness for C6 on `storeQueue3` (queue alice, bob, carol): removing the
head alice promotes bob with his enqueue time restamped to 9 and carol and
dave untouched; removing the non-head bob erases exactly bob's entry. -/
theorem C6_witness :
    (∃ s', Remove storeQueue3 ⟨"alice"⟩ "n" "p" 9 = (Except.ok (), s') ∧
      filterKey s'.reservations (ResourceKey "n" "p") =
        ⟨⟨"bob"⟩, ⟨"n", "p", 0⟩, 9⟩ :: [⟨⟨"carol"⟩, ⟨"n", "p", 0⟩, 3⟩] ∧
      filterNotKey s'.reservations (ResourceKey "n" "p") =
        filterNotKey storeQueue3.reservations (ResourceKey "n" "p")) ∧
    (∃ s' idx res, Remove storeQueue3 ⟨"bob"⟩ "n" "p" 9 = (Except.ok (), s') ∧
      storeQueue3.reservations.get? idx = some res ∧ res.user.id = "bob" ∧
      res.resource.Key = ResourceKey "n" "p" ∧
      s'.reservations = storeQueue3.reservations.take idx ++
        storeQueue3.reservations.drop (idx + 1)) := by
  constructor
  · exact (C6_head_removal_restamps_new_head_only storeQueue3 ⟨"alice"⟩ "n" "p" 9
      ⟨"n", "p", 0⟩ (by decide) rfl).1
      ⟨⟨"alice"⟩, ⟨"n", "p", 0⟩, 1⟩ ⟨⟨"bob"⟩, ⟨"n", "p", 0⟩, 2⟩
      [⟨⟨"carol"⟩, ⟨"n", "p", 0⟩, 3⟩] (by decide) rfl
  · exact (C6_head_removal_restamps_new_head_only storeQueue3 ⟨"bob"⟩ "n" "p" 9
      ⟨"n", "p", 0⟩ (by decide) rfl).2
      ⟨⟨"alice"⟩, ⟨"n", "p", 0⟩, 1⟩
      [⟨⟨"bob"⟩, ⟨"n", "p", 0⟩, 2⟩, ⟨⟨"carol"⟩, ⟨"n", "p", 0⟩, 3⟩]
      (by decide) (by decide) (by decide)

theorem goEraseLoop_noMatch (p : Reservation → Bool) :
    ∀ (fuel idx : Nat) (live stale : List Reservation) (matched : Bool),
      (∀ res ∈ live ++ stale, p res = false) →
      goEraseLoop p fuel idx live stale matched = some (live, matched) := by
  intro fuel
  induction fuel with
  | zero => intro idx live stale matched _; rfl
  | succ n ih =>
    intro idx live stale matched hall
    rw [goEraseLoop]
    cases hget : (live ++ stale).get? idx with
    | none => rfl
    | some res =>
      have hres : p res = false := hall res (List.get?_mem hget)
      simp only [hres, Bool.false_eq_true, if_false]
      exact ih (idx + 1) live stale matched hall

theorem filterKey_eq_nil {l : List Reservation} {k : String × String}
    (h : filterKey l k = []) : ∀ res ∈ l, ¬(res.resource.Key = k) := by
  induction l with
  | nil => intro res hres; cases hres
  | cons z l' ih =>
    by_cases hzk : z.resource.Key = k
    · rw [filterKey, if_pos hzk] at h
      cases h
    · rw [filterKey, if_neg hzk] at h
      intro res hres
      cases List.mem_cons.mp hres with
      | inl hz => rw [hz]; exact hzk
      | inr hz => exact ih h res hz

theorem RemoveResource_empty_queue {s : Store} {name env : String}
    {r : Resource} (hr : lookupRes s.resources (ResourceKey name env) = some r)
    (hkey : r.Key = ResourceKey name env)
    (hq : filterKey s.reservations (ResourceKey name env) = []) :
    RemoveResource s name env = some (Except.ok (),
      { resources := eraseRes s.resources r.Key,
        reservations := s.reservations }) := by
  have hg : (GetResource s name env false).1 = some r := by
    simp [GetResource, hr]
  unfold RemoveResource
  rw [hg]
  dsimp only
  rw [goEraseLoop_noMatch]
  intro res hres
  simp only [List.append_nil] at hres
  simp only [decide_eq_false_iff_not]
  rw [hkey]
  exact filterKey_eq_nil hq res hres

theorem GetQueueForResource_ok {s : Store} {name env : String} {q : Queue}
    {s2 : Store} (h : GetQueueForResource s name env = (Except.ok q, s2)) :
    ∃ r1, lookupRes s.resources (ResourceKey name env) = some r1 ∧
      q = ⟨r1, filterKey s.reservations r1.Key⟩ ∧ s2 = s := by
  unfold GetQueueForResource at h
  cases hg : (GetResource s name env false).1 with
  | none =>
    rw [hg] at h
    cases h
  | some r1 =>
    rw [hg] at h
    injection h with h1 h2
    injection h1 with h1
    refine ⟨r1, ?_, h1.symm, h2.symm⟩
    simp only [GetResource] at hg
    cases hl : lookupRes s.resources (ResourceKey name env) with
    | none => rw [hl] at hg; cases hg
    | some r0 =>
      rw [hl] at hg
      injection hg with hg
      rw [hg]

theorem WFResources_mem_lookup {m : Resources} (hwf : WFResources m = true)
    {k0 : String × String} {r0 : Resource} (hm : (k0, r0) ∈ m) :
    lookupRes m k0 = some r0 := by
  induction m with
  | nil => cases hm
  | cons e rest ih =>
    obtain ⟨k1, r1⟩ := e
    simp only [WFResources, Bool.and_eq_true, decide_eq_true_eq] at hwf
    cases List.mem_cons.mp hm with
    | inl h =>
      injection h with h1 h2
      subst h1
      subst h2
      simp [lookupRes]
    | inr h =>
      have hrest := ih hwf.2 h
      by_cases hk : k1 = k0
      · subst hk
        rw [hwf.1.2] at hrest
        cases hrest
      · rw [lookupRes, if_neg hk]
        exact hrest

theorem pruneLoop_prune_spec (hours now : Int) :
    ∀ (entries : List ((String × String) × Resource)) (s s' : Store),
      WFResources s.resources = true →
      pruneLoop hours now entries s = some s' →
      s'.reservations = s.reservations ∧
      (∀ k rr, lookupRes s.resources k = some rr →
        lookupRes s'.resources k = none →
        filterKey s.reservations k = [] ∧
        ∃ k0 r0, (k0, r0) ∈ entries ∧ ResourceKey r0.name r0.env = k ∧
          r0.lastActivity < now - hours) := by
  intro entries
  induction entries with
  | nil =>
    intro s s' hwf h
    simp only [pruneLoop] at h
    injection h with h
    subst h
    refine ⟨rfl, ?_⟩
    intro k rr h1 h2
    rw [h1] at h2
    cases h2
  | cons e rest ih =>
    intro s s' hwf h
    obtain ⟨k, r⟩ := e
    simp only [pruneLoop] at h
    split at h
    · cases h
    · rename_i q snd heq
      obtain ⟨r1, hl1, hq1, _⟩ := GetQueueForResource_ok heq
      have hk1 : r1.Key = ResourceKey r.name r.env := WFResources_lookup hwf hl1
      split at h
      · -- non-empty queue: the resource is skipped, the store unchanged
        obtain ⟨h1, h2⟩ := ih s s' hwf h
        refine ⟨h1, ?_⟩
        intro k2 rr hk2 hk2'
        obtain ⟨hqe, k0, r0, hmem, hkey0, hold⟩ := h2 k2 rr hk2 hk2'
        exact ⟨hqe, k0, r0, List.mem_cons_of_mem _ hmem, hkey0, hold⟩
      · rename_i hqfull
        have hqempty : filterKey s.reservations r1.Key = [] := by
          subst hq1
          by_contra hne
          apply hqfull
          simp only [Queue.HasReservations]
          cases hflt : filterKey s.reservations r1.Key with
          | nil => exact absurd hflt hne
          | cons a as => rfl
        split at h
        · rename_i hold
          -- removal branch
          rw [RemoveResource_empty_queue hl1 hk1 (hk1 ▸ hqempty)] at h
          have hwf1 : WFResources (eraseRes s.resources r1.Key) = true :=
            WFResources_eraseRes hwf r1.Key
          obtain ⟨h1, h2⟩ := ih _ s' hwf1 h
          refine ⟨h1, ?_⟩
          intro k2 rr hk2 hk2'
          by_cases hkk : k2 = r1.Key
          · subst hkk
            refine ⟨hqempty, k, r, List.mem_cons_self _ _, ?_, hold⟩
            rw [← hk1]
          · have hk2s : lookupRes (eraseRes s.resources r1.Key) k2 = some rr := by
              rw [lookupRes_eraseRes, if_neg hkk]
              exact hk2
            obtain ⟨hqe, k0, r0, hmem, hkey0, hold0⟩ := h2 k2 rr hk2s hk2'
            exact ⟨hqe, k0, r0, List.mem_cons_of_mem _ hmem, hkey0, hold0⟩
        · obtain ⟨h1, h2⟩ := ih s s' hwf h
          refine ⟨h1, ?_⟩
          intro k2 rr hk2 hk2'
          obtain ⟨hqe, k0, r0, hmem, hkey0, hold⟩ := h2 k2 rr hk2 hk2'
          exact ⟨hqe, k0, r0, List.mem_cons_of_mem _ hmem, hkey0, hold⟩

/-! ## C7 -/

/-- C7: a completed prune sweep leaves the reservation sequence untouched
and only ever deletes resources whose queue was empty and whose
`lastActivity` was older than `now - maxAgeHours`; in particular it never
removes a resource with a non-empty queue, regardless of age. -/
theorem C7_prune_only_removes_idle_old_resources :
    ∀ (s : Store) (hours now : Int) (s' : Store),
      WFResources s.resources = true →
      PruneInactiveResources s hours now = some s' →
      s'.reservations = s.reservations ∧
      (∀ k r, lookupRes s.resources k = some r →
        lookupRes s'.resources k = none →
        filterKey s.reservations k = [] ∧ r.lastActivity < now - hours) := by
  intro s hours now s' hwf h
  obtain ⟨hres, hdel⟩ := pruneLoop_prune_spec hours now s.resources s s' hwf h
  refine ⟨hres, ?_⟩
  intro k r hk hk'
  obtain ⟨hql, k0, r0, hmem, hkey0, hold⟩ := hdel k r hk hk'
  have hl0 := WFResources_mem_lookup hwf hmem
  have hk0 : r0.Key = k0 := WFResources_lookup hwf hl0
  have hkk : k0 = k := hk0.symm.trans hkey0
  subst hkk
  rw [hl0] at hk
  injection hk with hk
  subst hk
  exact ⟨hql, hold⟩

/-- Witness for C7 on `storePruneMix` with a 2-hour age bound at time 10:
the idle resource `("n","p")` is removed — its queue was empty and its
`lastActivity` 0 is older than `10 - 2` — while the held resource
`("m","q")` of the same age survives, and the reservation sequence is
untouched. -/
theorem C7_witness :
    ((⟨[(("m", "q"), ⟨"m", "q", 0⟩)],
        [⟨⟨"alice"⟩, ⟨"m", "q", 0⟩, 1⟩]⟩ : Store)).reservations =
      storePruneMix.reservations ∧
    (filterKey storePruneMix.reservations ("n", "p") = [] ∧
      (0 : Int) < 10 - 2) ∧
    lookupRes storePruneMix.resources ("m", "q") = some ⟨"m", "q", 0⟩ := by
  have h := C7_prune_only_removes_idle_old_resources storePruneMix 2 10
    ⟨[(("m", "q"), ⟨"m", "q", 0⟩)], [⟨⟨"alice"⟩, ⟨"m", "q", 0⟩, 1⟩]⟩
    (by decide) (by decide)
  exact ⟨h.1, h.2 ("n", "p") ⟨"n", "p", 0⟩ (by decide) (by decide), by decide⟩

/-! ## C1 -/

/-- C1: the claim says `GetPosition` returns the zero-based rank, with
`GetPosition("bob")` returning 0 after `Reserve("alice")`, `Reserve("bob")`,
`Remove("alice")`.  Evaluating the code on that scenario: the scan
increments `pos` for the user's own entry before the user check, so the
current holder gets 1, not 0 — the position is one-based. -/
theorem C1_getPosition_of_new_holder_is_one :
    (GetPosition
        (Remove
          (Reserve (Reserve emptyStore ⟨"alice"⟩ "db1" "prod" 1).2
            ⟨"bob"⟩ "db1" "prod" 2).2
          ⟨"alice"⟩ "db1" "prod" 3).2
        ⟨"bob"⟩ "db1" "prod").1 = Except.ok 1 := by decide

/-! ## C2 -/

/-- C2: the claim says `RemoveResource` deletes every reservation of the
resource, including when it has two or more.  Evaluating the code: on
`storeTwoPlusOne`, removing `("n","p")` succeeds but bob's reservation —
whose resource key is the removed key — survives, because the loop ranges
over the slice it is mutating and skips the element shifted into the
removed slot; and on `storeTwoTrailing` the same loop reads a stale cell of
the backing array and panics on `reservations[idx+1:]` (`none`). -/
theorem C2_removeResource_leaves_and_panics :
    RemoveResource storeTwoPlusOne "n" "p" =
      some (Except.ok (),
        { resources := [(("m", "q"), ⟨"m", "q", 0⟩)],
          reservations :=
            [⟨⟨"bob"⟩, ⟨"n", "p", 0⟩, 2⟩, ⟨⟨"carol"⟩, ⟨"m", "q", 0⟩, 3⟩] }) ∧
    (⟨⟨"bob"⟩, ⟨"n", "p", 0⟩, 2⟩ : Reservation).resource.Key =
      ResourceKey "n" "p" ∧
    RemoveResource storeTwoTrailing "n" "p" = none := by decide

/-! ## C3 -/

/-- C3: the claim says `RemoveEnv` deletes every reservation whose
resource's env matches, including when two or more match.  Evaluating the
code on `storeTwoEnvs`: `RemoveEnv("staging")` reports success and deletes
both staging resources, but bob's staging reservation survives the
mutate-while-ranging loop; the prod resource and reservation are untouched.
The no-match case does return `EnvDoesNotExist`. -/
theorem C3_removeEnv_leaves_matching_reservation :
    RemoveEnv storeTwoEnvs "" "staging" =
      some (Except.ok (),
        { resources := [(("r3", "prod"), ⟨"r3", "prod", 0⟩)],
          reservations :=
            [⟨⟨"bob"⟩, ⟨"r2", "staging", 0⟩, 2⟩,
             ⟨⟨"carol"⟩, ⟨"r3", "prod", 0⟩, 3⟩] }) ∧
    (⟨⟨"bob"⟩, ⟨"r2", "staging", 0⟩, 2⟩ : Reservation).resource.env =
      "staging" ∧
    RemoveEnv storeTwoEnvs "" "nosuchenv" =
      some (Except.error Err.EnvDoesNotExist, storeTwoEnvs) := by decide

/-! ## C4 -/

/-- C4: the claim says a successful `Reserve` stamps the resource's
`lastActivity = now` in the persisted resource mapping, observable by a
subsequent read.  Evaluating the code on `storeOneIdle` at `now = 5`: the
reservation is appended with enqueue time 5 (and its embedded resource copy
carries the stamp), but the persisted mapping entry keeps `lastActivity`
0 — the source assigns `r.LastActivity` on a decoded copy and never calls
`SetRedisResources` — so the subsequent read observes 0, not 5. -/
theorem C4_reserve_lastActivity_not_persisted :
    Reserve storeOneIdle ⟨"alice"⟩ "n" "p" 5 =
      (Except.ok (),
        { resources := [(("n", "p"), ⟨"n", "p", 0⟩)],
          reservations := [⟨⟨"alice"⟩, ⟨"n", "p", 5⟩, 5⟩] }) ∧
    (GetResource (Reserve storeOneIdle ⟨"alice"⟩ "n" "p" 5).2 "n" "p" false).1 =
      some ⟨"n", "p", 0⟩ := by decide

/-! ## C9 -/

/-- C9: a get of a never-written document stores the collection's empty
value (empty entry list for the mapping, empty sequence for reservations),
persists it and returns it; and when the re-read after initialization also
fails, the get aborts (`none`) instead of returning data. -/
theorem C9_get_initializes_empty_and_aborts_on_refailure :
    (∀ rs : RawStore, rs.reservationsDoc = none →
      GetRedisReservations rs = some ([], SetRedisReservations rs []) ∧
        (SetRedisReservations rs []).reservationsDoc = some []) ∧
    (∀ rs : RawStore, rs.resourcesDoc = none →
      GetRedisResources rs = some ([], SetRedisResources rs []) ∧
        (SetRedisResources rs []).resourcesDoc = some []) ∧
    getDocOrInit (List Reservation) none none = none := by
  refine ⟨?_, ?_, rfl⟩
  · intro rs h
    simp [GetRedisReservations, SetRedisReservations, h]
  · intro rs h
    simp [GetRedisResources, SetRedisResources, h]

/-- Witness for C9 at the never-written raw store. -/
theorem C9_witness :
    GetRedisReservations ⟨none, none⟩ = some ([], ⟨some [], none⟩) ∧
    GetRedisResources ⟨none, none⟩ = some ([], ⟨none, some []⟩) := by
  refine ⟨?_, ?_⟩
  · exact ((C9_get_initializes_empty_and_aborts_on_refailure.1 ⟨none, none⟩ rfl).1)
  · exact ((C9_get_initializes_empty_and_aborts_on_refailure.2.1 ⟨none, none⟩ rfl).1)

/-! ## C10 -/

/-- C10: whenever `Remove`, `GetPosition`, `RemoveResource` or `RemoveEnv`
returns a domain error, the persisted collections are exactly the ones the
call started from: each error branch returns before any write-back. -/
theorem C10_domain_error_leaves_collections_unchanged :
    ∀ (s : Store) (u : User) (name env : String) (now : Int),
      (∀ e s', Remove s u name env now = (Except.error e, s') → s' = s) ∧
      (∀ e s', GetPosition s u name env = (Except.error e, s') → s' = s) ∧
      (∀ e s', RemoveResource s name env = some (Except.error e, s') → s' = s) ∧
      (∀ e s', RemoveEnv s name env = some (Except.error e, s') → s' = s) := by
  intro s u name env now
  refine ⟨?_, ?_, ?_, ?_⟩
  · intro e s' h
    unfold Remove at h
    split at h
    · injection h with h1 h2; exact h2.symm
    · split at h
      · injection h with h1 h2; exact h2.symm
      · injection h with h1 h2; exact absurd h1 (by simp)
  · intro e s' h
    unfold GetPosition at h
    split at h
    · injection h with h1 h2; exact h2.symm
    · split at h
      · injection h with h1 h2; exact h2.symm
      · injection h with h1 h2; exact absurd h1 (by simp)
  · intro e s' h
    unfold RemoveResource at h
    split at h
    · injection h with h1; injection h1 with h1 h2; exact h2.symm
    · split at h
      · exact absurd h (by simp)
      · injection h with h1; injection h1 with h1 h2; exact absurd h1 (by simp)
  · intro e s' h
    unfold RemoveEnv at h
    split at h
    · exact absurd h (by simp)
    · split at h
      · injection h with h1; injection h1 with h1 h2; exact absurd h1 (by simp)
      · injection h with h1; injection h1 with h1 h2; exact h2.symm

/-- Witness for C10: each of the four operations, hitting its domain error
on a concrete store, hands back that store. -/
theorem C10_witness :
    (Remove emptyStore ⟨"u"⟩ "n" "p" 0).2 = emptyStore ∧
    (GetPosition storeOneIdle ⟨"u"⟩ "n" "p").2 = storeOneIdle ∧
    ((RemoveResource emptyStore "n" "p").map Prod.snd = some emptyStore) ∧
    ((RemoveEnv emptyStore "" "staging").map Prod.snd = some emptyStore) := by
  refine ⟨?_, ?_, ?_, ?_⟩
  · exact (C10_domain_error_leaves_collections_unchanged emptyStore ⟨"u"⟩ "n" "p" 0).1
      Err.ResourceDoesNotExist (Remove emptyStore ⟨"u"⟩ "n" "p" 0).2 (by decide)
  · exact (C10_domain_error_leaves_collections_unchanged storeOneIdle ⟨"u"⟩ "n" "p" 0).2.1
      Err.NotInQueue (GetPosition storeOneIdle ⟨"u"⟩ "n" "p").2 (by decide)
  · exact ((C10_domain_error_leaves_collections_unchanged emptyStore ⟨"u"⟩ "n" "p" 0).2.2.1
      Err.ResourceDoesNotExist emptyStore (by decide)) ▸ (by decide)
  · exact ((C10_domain_error_leaves_collections_unchanged emptyStore ⟨"u"⟩ "" "staging" 0).2.2.2
      Err.EnvDoesNotExist emptyStore (by decide)) ▸ (by decide)

end Reservebot
